import Mathlib

/-!
Verification of `discover_and_add_mcp_servers.py` (MCP-server discovery and
config merge tool).

The script is embedded shallowly:
* Python/JSON/YAML values become the inductive `JVal`; Python `dict`s become
  insertion-ordered association lists `PDict` with `dictSet` mimicking
  `d[k] = v` (replace in place when the key is present, append otherwise),
  `dictGet` mimicking lookup, `dictSetdefault` mimicking `d.setdefault`,
  and `dictUpdate` mimicking `d.update`.
* Filesystem interaction is abstracted at the call boundary: the `$PATH`
  entries become a list of `DirState`s (missing directory / existing
  non-directory / directory with entries), and the `mcp_servers` descriptor
  directory becomes a `YamlDir` (missing, or a list of parsed documents in
  glob order).
* Exceptions (`KeyError`, `IndexError`, `TypeError`, `NotADirectoryError`)
  become `Except PyErr` results.
-/

/-- Values of the Python/JSON data model used by the script. -/
inductive JVal where
  | str : String → JVal
  | arr : List JVal → JVal
  | obj : List (JVal × JVal) → JVal

mutual

/-- Boolean equality on `JVal`, by structural recursion. -/
def JVal.beq : JVal → JVal → Bool
  | .str a, .str b => a == b
  | .arr as, .arr bs => JVal.beqList as bs
  | .obj xs, .obj ys => JVal.beqPairs xs ys
  | .str _, .arr _ => false
  | .str _, .obj _ => false
  | .arr _, .str _ => false
  | .arr _, .obj _ => false
  | .obj _, .str _ => false
  | .obj _, .arr _ => false

/-- Boolean equality on lists of `JVal`. -/
def JVal.beqList : List JVal → List JVal → Bool
  | [], [] => true
  | x :: xs, y :: ys => JVal.beq x y && JVal.beqList xs ys
  | _, _ => false

/-- Boolean equality on lists of `JVal` pairs. -/
def JVal.beqPairs : List (JVal × JVal) → List (JVal × JVal) → Bool
  | [], [] => true
  | (k, v) :: xs, (k', v') :: ys =>
    JVal.beq k k' && JVal.beq v v' && JVal.beqPairs xs ys
  | _, _ => false

end

mutual

/-- `JVal.beq` decides propositional equality. -/
theorem JVal.beq_iff : ∀ a b : JVal, JVal.beq a b = true ↔ a = b
  | .str a, .str b => by simp [JVal.beq]
  | .arr as, .arr bs => by rw [JVal.beq, JVal.beqList_iff as bs]; simp
  | .obj xs, .obj ys => by rw [JVal.beq, JVal.beqPairs_iff xs ys]; simp
  | .str _, .arr _ => by simp [JVal.beq]
  | .str _, .obj _ => by simp [JVal.beq]
  | .arr _, .str _ => by simp [JVal.beq]
  | .arr _, .obj _ => by simp [JVal.beq]
  | .obj _, .str _ => by simp [JVal.beq]
  | .obj _, .arr _ => by simp [JVal.beq]

/-- `JVal.beqList` decides propositional equality. -/
theorem JVal.beqList_iff : ∀ as bs : List JVal, JVal.beqList as bs = true ↔ as = bs
  | [], [] => by simp [JVal.beqList]
  | x :: xs, y :: ys => by
    rw [JVal.beqList, Bool.and_eq_true, JVal.beq_iff x y, JVal.beqList_iff xs ys]
    simp
  | [], _ :: _ => by simp [JVal.beqList]
  | _ :: _, [] => by simp [JVal.beqList]

/-- `JVal.beqPairs` decides propositional equality. -/
theorem JVal.beqPairs_iff :
    ∀ xs ys : List (JVal × JVal), JVal.beqPairs xs ys = true ↔ xs = ys
  | [], [] => by simp [JVal.beqPairs]
  | (k, v) :: xs, (k', v') :: ys => by
    rw [JVal.beqPairs, Bool.and_eq_true, Bool.and_eq_true, JVal.beq_iff k k',
      JVal.beq_iff v v', JVal.beqPairs_iff xs ys]
    simp
  | [], _ :: _ => by simp [JVal.beqPairs]
  | _ :: _, [] => by simp [JVal.beqPairs]

end

instance : DecidableEq JVal := fun a b =>
  decidable_of_iff (JVal.beq a b = true) (JVal.beq_iff a b)

/-- A Python dict, as an insertion-ordered association list. -/
abbrev PDict := List (JVal × JVal)

/-- Shorthand for a string value. -/
def jstr (s : String) : JVal := JVal.str s

/-- Python `k in d` for a dict. -/
def hasKey : PDict → JVal → Bool
  | [], _ => false
  | kv :: rest, k => if kv.1 = k then true else hasKey rest k

/-- Python `d[k]` lookup (as an `Option`). -/
def dictGet : PDict → JVal → Option JVal
  | [], _ => none
  | kv :: rest, k => if kv.1 = k then some kv.2 else dictGet rest k

/-- Replace the value of every entry whose key is `k` by `v`. -/
def setAll : PDict → JVal → JVal → PDict
  | [], _, _ => []
  | kv :: rest, k, v => (if kv.1 = k then (k, v) else kv) :: setAll rest k v

/-- Python `d[k] = v`: replace in place when present, append otherwise. -/
def dictSet (d : PDict) (k v : JVal) : PDict :=
  if hasKey d k then setAll d k v else d ++ [(k, v)]

/-- Python `d.setdefault(k, v)`. -/
def dictSetdefault (d : PDict) (k v : JVal) : PDict :=
  if hasKey d k then d else d ++ [(k, v)]

/-- Python `d.update(n)`: successive assignment of every entry of `n`. -/
def dictUpdate (d n : PDict) : PDict :=
  n.foldl (fun acc kv => dictSet acc kv.1 kv.2) d

/-- Keys of a dict, in order. -/
def keysOf (d : PDict) : List JVal := d.map Prod.fst

/-- A real Python dict has no duplicate keys. -/
def NodupKeys (d : PDict) : Prop := (keysOf d).Nodup

instance : DecidablePred NodupKeys := fun d =>
  inferInstanceAs (Decidable (keysOf d).Nodup)

/-- The Python exceptions the script can raise. -/
inductive PyErr where
  | keyError
  | indexError
  | typeError
  | notADirectoryError
deriving DecidableEq

instance {ε α : Type} [DecidableEq ε] [DecidableEq α] :
    DecidableEq (Except ε α) := fun a b =>
  match a, b with
  | .ok x, .ok y => decidable_of_iff (x = y) (by simp)
  | .error e, .error f => decidable_of_iff (e = f) (by simp)
  | .ok _, .error _ => isFalse (by simp)
  | .error _, .ok _ => isFalse (by simp)

/-! ## String helpers mirroring the Python string operations used. -/

/-- Index of the last occurrence of `c` (Python `str.rfind`, `none` for -1). -/
def rfindIdx (c : Char) : List Char → Option Nat
  | [] => none
  | a :: rest =>
    match rfindIdx c rest with
    | some i => some (i + 1)
    | none => if a = c then some 0 else none

/-- Python `pathlib.PurePath.stem` on a plain filename: drop the part from the
last dot on, except when that dot is the first or the last character. -/
def stemList (cs : List Char) : List Char :=
  match rfindIdx '.' cs with
  | some i => if 0 < i ∧ i < cs.length - 1 then cs.take i else cs
  | none => cs

/-- `Path(name).stem` for a filename. -/
def stem (s : String) : String := ⟨stemList s.toList⟩

/-- Python `name.replace('-', '_')` for single characters. -/
def underscore (s : String) : String :=
  ⟨s.toList.map (fun c => if c = '-' then '_' else c)⟩

/-- Python `s.split(sep)` keeping empty fields: `"a,,b" → ["a","","b"]`,
`"" → [""]`. -/
def splitAll (sep : Char) : List Char → List (List Char)
  | [] => [[]]
  | c :: rest =>
    match splitAll sep rest with
    | [] => [[]]
    | w :: ws => if c = sep then [] :: w :: ws else (c :: w) :: ws

/-- The whitespace characters recognised by CPython `str.split()`
(`Py_UNICODE_ISSPACE`): U+0009–U+000D, the information separators
U+001C–U+001F, space, next line U+0085, no-break space U+00A0, Ogham space
mark U+1680, the spaces U+2000–U+200A, line separator U+2028, paragraph
separator U+2029, narrow no-break space U+202F, medium mathematical space
U+205F, and ideographic space U+3000. -/
def isSpace (c : Char) : Bool :=
  let n := c.toNat
  (0x09 ≤ n && n ≤ 0x0d) || (0x1c ≤ n && n ≤ 0x1f) || n = 0x20 ||
    n = 0x85 || n = 0xa0 || n = 0x1680 || (0x2000 ≤ n && n ≤ 0x200a) ||
    n = 0x2028 || n = 0x2029 || n = 0x202f || n = 0x205f || n = 0x3000

/-- Helper for `wsSplit`, accumulating the current word reversed. -/
def wsSplitAux : List Char → List Char → List (List Char)
  | [], acc => if acc.isEmpty then [] else [acc.reverse]
  | c :: rest, acc =>
    if isSpace c then
      if acc.isEmpty then wsSplitAux rest [] else acc.reverse :: wsSplitAux rest []
    else wsSplitAux rest (c :: acc)

/-- Python `s.split()` with no argument: split on whitespace runs, dropping
empty fields (so the result is `[]` for all-whitespace input). -/
def wsSplit (cs : List Char) : List (List Char) := wsSplitAux cs []

/-! ## `find_binaries` -/

/-- A directory entry as seen by the scanner: its name, whether it is a
regular file, and whether it is executable by the current user. -/
structure FileEntry where
  name : String
  isFile : Bool
  isExec : Bool
deriving DecidableEq

/-- State of one `$PATH` entry. -/
inductive DirState where
  | missing
  | notADir
  | dir (entries : List FileEntry)
deriving DecidableEq

/-- Python `re` `$` anchor: a match can end at the end of the string or just
before a newline at the end of the string. -/
def dollarMatch (suf s : List Char) : Bool :=
  suf.isSuffixOf s || (suf ++ ['\n']).isSuffixOf s

/-- `NAME_PATTERNS.search(name)`: the regex `(mcp-server|-mcp|_mcp)$`
matches iff one of the alternatives ends at the `$` anchor. -/
def namePatternMatch (s : List Char) : Bool :=
  dollarMatch "mcp-server".toList s || dollarMatch "-mcp".toList s ||
    dollarMatch "_mcp".toList s

/-- The descriptor built for a local server. -/
def localDesc (command : String) (args tools : List String) : JVal :=
  JVal.obj [(jstr "type", jstr "local"), (jstr "command", jstr command),
    (jstr "args", JVal.arr (args.map jstr)),
    (jstr "tools", JVal.arr (tools.map jstr))]

/-- Whether the scanner picks up a directory entry. -/
def qualifies (e : FileEntry) : Bool :=
  e.isFile && e.isExec && namePatternMatch e.name.toList

/-- The inner loop of `find_binaries` over one directory's entries. -/
def scanDir (p : String) (entries : List FileEntry) (acc : PDict) : PDict :=
  entries.foldl (fun acc e =>
    if qualifies e then
      dictSet acc (jstr (underscore (stem e.name)))
        (localDesc (p ++ "/" ++ e.name) [] ["*"])
    else acc) acc

/-- The outer loop of `find_binaries` over the `$PATH` entries:
`FileNotFoundError` is caught and the entry skipped; a `NotADirectoryError`
from `iterdir` propagates. -/
def fbGo : List (String × DirState) → PDict → Except PyErr PDict
  | [], acc => .ok acc
  | (_, DirState.missing) :: rest, acc => fbGo rest acc
  | (_, DirState.notADir) :: _, _ => .error PyErr.notADirectoryError
  | (p, DirState.dir es) :: rest, acc => fbGo rest (scanDir p es acc)

/-- `find_binaries()`. -/
def find_binaries (path : List (String × DirState)) : Except PyErr PDict :=
  fbGo path []

/-! ## `load_yaml_descriptors` -/

/-- State of the `mcp_servers` descriptor directory: missing, or present with
the parsed documents of its `*.yaml` files in glob order. -/
inductive YamlDir where
  | missing
  | present (docs : List PDict)

/-- The dict comprehension dropping the `name` key of a descriptor document. -/
def descriptorOf (doc : PDict) : JVal :=
  JVal.obj (doc.filter (fun kv => kv.1 != jstr "name"))

/-- The loop of `load_yaml_descriptors`: `data["name"]` raises `KeyError`
when absent, which propagates. -/
def loadGo : List PDict → PDict → Except PyErr PDict
  | [], acc => .ok acc
  | doc :: rest, acc =>
    match dictGet doc (jstr "name") with
    | none => .error PyErr.keyError
    | some n => loadGo rest (dictSet acc n (descriptorOf doc))

/-- `load_yaml_descriptors()`. -/
def load_yaml_descriptors : YamlDir → Except PyErr PDict
  | .missing => .ok []
  | .present docs => loadGo docs []

/-! ## `parse_add_flags` -/

/-- The part of an `--add` item after the first `=` (`item.split('=', 1)[1]`). -/
def restSeg (item : List Char) : List Char :=
  (item.dropWhile (fun c => c ≠ '=')).tail

/-- The command part of an `--add` item: before the first `:` of the
right-hand side when a colon is present, the whole right-hand side otherwise. -/
def commandSeg (item : List Char) : List Char :=
  if ':' ∈ restSeg item then (restSeg item).takeWhile (fun c => c ≠ ':')
  else restSeg item

/-- The tools-list computation: `tools.split(',') if tools != '*' else ["*"]`. -/
def toolsListOf (tools : List Char) : List (List Char) :=
  if tools = ['*'] then [['*']] else splitAll ',' tools

/-- Processing of one `--add` item: `none` when skipped (no `=`),
`IndexError` when `command.split()[0]` fails. -/
def parseOne (item : List Char) : Except PyErr (Option (JVal × JVal)) :=
  if '=' ∈ item then
    let name := item.takeWhile (fun c => c ≠ '=')
    let toolsList :=
      if ':' ∈ restSeg item then
        toolsListOf (((restSeg item).dropWhile (fun c => c ≠ ':')).tail)
      else [['*']]
    match wsSplit (commandSeg item) with
    | [] => .error PyErr.indexError
    | c0 :: cargs =>
      .ok (some (jstr ⟨name⟩, JVal.obj [(jstr "type", jstr "local"),
        (jstr "command", jstr ⟨c0⟩),
        (jstr "args", JVal.arr (cargs.map (fun a => jstr ⟨a⟩))),
        (jstr "tools", JVal.arr (toolsList.map (fun t => jstr ⟨t⟩)))]))
  else .ok none

/-- The loop of `parse_add_flags`. -/
def parseGo : List String → PDict → Except PyErr PDict
  | [], acc => .ok acc
  | item :: rest, acc =>
    match parseOne item.toList with
    | .error e => .error e
    | .ok none => parseGo rest acc
    | .ok (some kv) => parseGo rest (dictSet acc kv.1 kv.2)

/-- `parse_add_flags(add_list)`. -/
def parse_add_flags (addList : List String) : Except PyErr PDict :=
  parseGo addList []

/-! ## `merge_configs` and `main` -/

/-- `merge_configs(existing, new)`: shallow copy, `setdefault("mcpServers", {})`,
then assign every entry of `new` into the inner dict.  When `new` is nonempty
and the value under `"mcpServers"` is not a dict, the item assignment raises
`TypeError`. -/
def merge_configs (existing new : PDict) : Except PyErr PDict :=
  let merged := dictSetdefault existing (jstr "mcpServers") (JVal.obj [])
  if new.isEmpty then .ok merged
  else
    match dictGet merged (jstr "mcpServers") with
    | some (JVal.obj inner) =>
      .ok (dictSet merged (jstr "mcpServers") (JVal.obj (dictUpdate inner new)))
    | _ => .error PyErr.typeError

/-- The discovery phase of `main`: `servers = {}` then three successive
`servers.update(...)` calls, in the fixed order scanner → loader → parser. -/
def discover (path : List (String × DirState)) (ydir : YamlDir)
    (addl : List String) : Except PyErr PDict :=
  match find_binaries path with
  | .error e => .error e
  | .ok s1 =>
    match load_yaml_descriptors ydir with
    | .error e => .error e
    | .ok s2 =>
      match parse_add_flags addl with
      | .error e => .error e
      | .ok s3 => .ok (dictUpdate (dictUpdate (dictUpdate [] s1) s2) s3)

/-- The `--merge` branch of `main`: load the existing document when the merge
target exists (`none` models an absent file, read as `{}`), then merge the
discovered servers into it. -/
def mainMerge (path : List (String × DirState)) (ydir : YamlDir)
    (addl : List String) (existing : Option PDict) : Except PyErr PDict :=
  match discover path ydir addl with
  | .error e => .error e
  | .ok servers => merge_configs (existing.getD []) servers

/-! ## Definitions following the specification's words (for refinement) -/

/-- Plain suffix match against the three fixed patterns, as the specification
words it ("name ends with one of the fixed suffixes"). -/
def plainSuffixMatch (s : List Char) : Bool :=
  "mcp-server".toList.isSuffixOf s || "-mcp".toList.isSuffixOf s ||
    "_mcp".toList.isSuffixOf s

/-- Amended suffix condition: one of the fixed suffixes, optionally followed
by a single trailing newline (the artifact of the regex `$` anchor). -/
def specSuffixOk (s : List Char) : Bool :=
  ["mcp-server", "-mcp", "_mcp"].any
    (fun suf => suf.toList.isSuffixOf s || (suf.toList ++ ['\n']).isSuffixOf s)

/-- The scanner contract as one filter/map pass: every qualifying entry of
every directory contributes exactly its derived binding, later bindings
overriding earlier ones. -/
def specScan (path : List (String × List FileEntry)) : PDict :=
  ((path.map (fun pe =>
    (pe.2.filter (fun e => e.isFile && e.isExec && specSuffixOk e.name.toList)).map
      (fun e => (jstr (underscore (stem e.name)),
        localDesc (pe.1 ++ "/" ++ e.name) [] ["*"])))).flatten).foldl
    (fun acc kv => dictSet acc kv.1 kv.2) []

/-- Precondition under which `parse_add_flags` is total: every item that
contains `=` has at least one non-whitespace character in its command
segment (the part before the tools colon, when present). -/
def goodEntry (item : String) : Prop :=
  '=' ∈ item.toList → wsSplit (commandSeg item.toList) ≠ []

instance : DecidablePred goodEntry := fun _ =>
  inferInstanceAs (Decidable (_ → _))

/-! ## Lemmas about the dict operations -/

theorem hasKey_false_iff (d : PDict) (k : JVal) :
    hasKey d k = false ↔ ∀ e ∈ d, e.1 ≠ k := by
  induction d with
  | nil => simp [hasKey]
  | cons kv rest ih =>
    by_cases h : kv.1 = k <;> simp [hasKey, h, ih]

theorem dictGet_isSome_of_hasKey {d : PDict} {k : JVal} (h : hasKey d k = true) :
    ∃ v, dictGet d k = some v := by
  induction d with
  | nil => simp [hasKey] at h
  | cons kv rest ih =>
    by_cases hk : kv.1 = k
    · exact ⟨kv.2, by simp [dictGet, hk]⟩
    · simp [hasKey, hk] at h
      obtain ⟨v, hv⟩ := ih h
      exact ⟨v, by simp [dictGet, hk, hv]⟩

theorem hasKey_of_dictGet {d : PDict} {k v : JVal} (h : dictGet d k = some v) :
    hasKey d k = true := by
  induction d with
  | nil => simp [dictGet] at h
  | cons kv rest ih =>
    by_cases hk : kv.1 = k
    · simp [hasKey, hk]
    · simp [dictGet, hk] at h
      simp [hasKey, hk, ih h]

theorem dictGet_eq_none_of (d : PDict) (k : JVal) (h : ∀ e ∈ d, e.1 ≠ k) :
    dictGet d k = none := by
  induction d with
  | nil => rfl
  | cons kv rest ih =>
    have h1 : kv.1 ≠ k := h kv (by simp)
    simp [dictGet, h1]
    exact ih (fun e he => h e (by simp [he]))

theorem dictGet_setAll_self {d : PDict} {k : JVal} (v : JVal)
    (h : hasKey d k = true) : dictGet (setAll d k v) k = some v := by
  induction d with
  | nil => simp [hasKey] at h
  | cons kv rest ih =>
    by_cases hk : kv.1 = k
    · simp [setAll, dictGet, hk]
    · rw [hasKey, if_neg hk] at h
      rw [setAll, if_neg hk, dictGet, if_neg hk]
      exact ih h

theorem dictGet_append_single_self {d : PDict} {k : JVal} (v : JVal)
    (h : hasKey d k = false) : dictGet (d ++ [(k, v)]) k = some v := by
  induction d with
  | nil => simp [dictGet]
  | cons kv rest ih =>
    rw [hasKey] at h
    by_cases hk : kv.1 = k
    · simp [hk] at h
    · simp [hk] at h
      simp [dictGet, hk]
      exact ih h

theorem dictGet_dictSet_self (d : PDict) (k v : JVal) :
    dictGet (dictSet d k v) k = some v := by
  rw [dictSet]
  by_cases h : hasKey d k
  · rw [if_pos h]; exact dictGet_setAll_self v h
  · rw [if_neg h]
    exact dictGet_append_single_self v (by simpa using h)

theorem dictGet_setAll_ne {k k' : JVal} (h : k' ≠ k) (d : PDict) (v : JVal) :
    dictGet (setAll d k v) k' = dictGet d k' := by
  induction d with
  | nil => rfl
  | cons kv rest ih =>
    by_cases hk : kv.1 = k
    · rw [setAll, if_pos hk, dictGet, if_neg (Ne.symm h), dictGet, hk,
        if_neg (Ne.symm h)]
      exact ih
    · rw [setAll, if_neg hk, dictGet, dictGet]
      by_cases hk' : kv.1 = k'
      · rw [if_pos hk', if_pos hk']
      · rw [if_neg hk', if_neg hk']
        exact ih

theorem dictGet_append_single_ne {k k' : JVal} (h : k' ≠ k) (d : PDict)
    (v : JVal) : dictGet (d ++ [(k, v)]) k' = dictGet d k' := by
  induction d with
  | nil => simp [dictGet, Ne.symm h]
  | cons kv rest ih =>
    by_cases hk' : kv.1 = k' <;> simp [dictGet, hk', ih]

theorem dictGet_dictSet_ne {k k' : JVal} (h : k' ≠ k) (d : PDict) (v : JVal) :
    dictGet (dictSet d k v) k' = dictGet d k' := by
  rw [dictSet]
  by_cases hd : hasKey d k
  · rw [if_pos hd]; exact dictGet_setAll_ne h d v
  · rw [if_neg hd]; exact dictGet_append_single_ne h d v

theorem dictGet_setdefault_ne {k k' : JVal} (h : k' ≠ k) (d : PDict)
    (v : JVal) : dictGet (dictSetdefault d k v) k' = dictGet d k' := by
  rw [dictSetdefault]
  by_cases hd : hasKey d k
  · rw [if_pos hd]
  · rw [if_neg hd]; exact dictGet_append_single_ne h d v

theorem dictGet_setdefault_isSome (d : PDict) (k v : JVal) :
    ∃ w, dictGet (dictSetdefault d k v) k = some w := by
  rw [dictSetdefault]
  by_cases hd : hasKey d k
  · rw [if_pos hd]; exact dictGet_isSome_of_hasKey hd
  · rw [if_neg hd]
    exact ⟨v, dictGet_append_single_self v (by simpa using hd)⟩

theorem hasKey_dictSet_self (d : PDict) (k v : JVal) :
    hasKey (dictSet d k v) k = true :=
  hasKey_of_dictGet (dictGet_dictSet_self d k v)

theorem dictSetdefault_of_hasKey {d : PDict} {k : JVal} (v : JVal)
    (h : hasKey d k = true) : dictSetdefault d k v = d := by
  rw [dictSetdefault, if_pos h]

/-- A key is settled in a dict when it is present and every one of its
occurrences carries the value `v`. -/
def settled (d : PDict) (k v : JVal) : Prop :=
  hasKey d k = true ∧ ∀ e ∈ d, e.1 = k → e.2 = v

theorem setAll_eq_self {d : PDict} {k v : JVal}
    (h : ∀ e ∈ d, e.1 = k → e.2 = v) : setAll d k v = d := by
  induction d with
  | nil => rfl
  | cons kv rest ih =>
    rw [setAll, ih (fun e he hke => h e (by simp [he]) hke)]
    by_cases hk : kv.1 = k
    · have h2 : kv.2 = v := h kv (by simp) hk
      have : (k, v) = kv := by rw [← hk, ← h2]
      rw [if_pos hk, this]
    · rw [if_neg hk]

theorem setAll_vals {d : PDict} {k v : JVal} :
    ∀ e ∈ setAll d k v, e.1 = k → e.2 = v := by
  induction d with
  | nil => simp [setAll]
  | cons kv rest ih =>
    intro e he hke
    rw [setAll] at he
    rcases List.mem_cons.1 he with h' | h'
    · by_cases hk : kv.1 = k
      · rw [if_pos hk] at h'
        rw [h']
      · rw [if_neg hk] at h'
        exact absurd (h' ▸ hke) hk
    · exact ih e h' hke

theorem dictSet_of_settled {d : PDict} {k v : JVal} (h : settled d k v) :
    dictSet d k v = d := by
  rw [dictSet, if_pos h.1]
  exact setAll_eq_self h.2

theorem mem_setAll {d : PDict} {k v : JVal} {e : JVal × JVal}
    (h : e ∈ setAll d k v) : e ∈ d ∨ e = (k, v) := by
  induction d with
  | nil => simp [setAll] at h
  | cons kv rest ih =>
    rw [setAll] at h
    rcases List.mem_cons.1 h with h' | h'
    · by_cases hk : kv.1 = k
      · rw [if_pos hk] at h'
        exact Or.inr h'
      · rw [if_neg hk] at h'
        exact Or.inl (by simp [h'])
    · rcases ih h' with h'' | h''
      · exact Or.inl (by simp [h''])
      · exact Or.inr h''

theorem mem_dictSet {d : PDict} {k v : JVal} {e : JVal × JVal}
    (h : e ∈ dictSet d k v) : e ∈ d ∨ e = (k, v) := by
  rw [dictSet] at h
  by_cases hd : hasKey d k
  · rw [if_pos hd] at h
    exact mem_setAll h
  · rw [if_neg hd] at h
    rcases List.mem_append.1 h with h' | h'
    · exact Or.inl h'
    · right; simpa using h'

theorem settled_dictSet_self (d : PDict) (k v : JVal) :
    settled (dictSet d k v) k v := by
  refine ⟨hasKey_dictSet_self d k v, fun e he hk => ?_⟩
  rw [dictSet] at he
  by_cases hd : hasKey d k
  · rw [if_pos hd] at he
    exact setAll_vals e he hk
  · rw [if_neg hd] at he
    rcases List.mem_append.1 he with h' | h'
    · have hd' : hasKey d k = false := by simpa using hd
      rw [hasKey_false_iff] at hd'
      exact absurd hk (hd' e h')
    · have : e = (k, v) := by simpa using h'
      rw [this]

theorem settled_dictSet_ne {d : PDict} {k v k' v' : JVal} (hne : k' ≠ k)
    (h : settled d k v) : settled (dictSet d k' v') k v := by
  constructor
  · obtain ⟨w, hw⟩ := dictGet_isSome_of_hasKey h.1
    rw [← dictGet_dictSet_ne (Ne.symm hne) d v'] at hw
    exact hasKey_of_dictGet hw
  · intro e he hk
    rcases mem_dictSet he with h' | h'
    · exact h.2 e h' hk
    · rw [h'] at hk
      exact absurd hk hne

theorem settled_dictUpdate {d : PDict} {k v : JVal} (h : settled d k v)
    {n : PDict} (hn : ∀ e ∈ n, e.1 ≠ k) : settled (dictUpdate d n) k v := by
  induction n generalizing d with
  | nil => exact h
  | cons kv rest ih =>
    rw [show dictUpdate d (kv :: rest) = dictUpdate (dictSet d kv.1 kv.2) rest
      from rfl]
    exact ih (settled_dictSet_ne (hn kv (by simp)) h)
      (fun e he => hn e (by simp [he]))

theorem dictSet_idem (d : PDict) (k v : JVal) :
    dictSet (dictSet d k v) k v = dictSet d k v :=
  dictSet_of_settled (settled_dictSet_self d k v)

theorem dictUpdate_idem {n : PDict} (hn : NodupKeys n) (d : PDict) :
    dictUpdate (dictUpdate d n) n = dictUpdate d n := by
  induction n generalizing d with
  | nil => rfl
  | cons kv rest ih =>
    have hk : kv.1 ∉ keysOf rest := by
      have := hn
      rw [NodupKeys, keysOf, List.map_cons, List.nodup_cons] at this
      exact this.1
    have hrest : NodupKeys rest := by
      have := hn
      rw [NodupKeys, keysOf, List.map_cons, List.nodup_cons] at this
      exact this.2
    have hne : ∀ e ∈ rest, e.1 ≠ kv.1 := by
      intro e he heq
      exact hk (heq ▸ List.mem_map_of_mem Prod.fst he)
    rw [show dictUpdate d (kv :: rest) = dictUpdate (dictSet d kv.1 kv.2) rest
      from rfl]
    rw [show dictUpdate (dictUpdate (dictSet d kv.1 kv.2) rest) (kv :: rest) =
      dictUpdate (dictSet (dictUpdate (dictSet d kv.1 kv.2) rest) kv.1 kv.2)
        rest from rfl]
    rw [dictSet_of_settled
      (settled_dictUpdate (settled_dictSet_self d kv.1 kv.2) hne)]
    exact ih hrest (dictSet d kv.1 kv.2)

theorem dictUpdate_cons (d : PDict) (kv : JVal × JVal) (n : PDict) :
    dictUpdate d (kv :: n) = dictUpdate (dictSet d kv.1 kv.2) n := rfl

theorem dictGet_dictUpdate {n : PDict} (hn : NodupKeys n) (d : PDict)
    (k : JVal) : dictGet (dictUpdate d n) k =
      ((dictGet n k).orElse fun _ => dictGet d k) := by
  induction n generalizing d with
  | nil =>
    rw [show dictUpdate d [] = d from rfl]
    cases dictGet d k <;> rfl
  | cons kv rest ih =>
    rw [NodupKeys, keysOf, List.map_cons, List.nodup_cons] at hn
    rw [dictUpdate_cons, ih hn.2]
    by_cases hk : kv.1 = k
    · have hrest : dictGet rest k = none := by
        refine dictGet_eq_none_of rest k (fun e he heq => ?_)
        exact hn.1 (hk ▸ heq ▸ List.mem_map_of_mem Prod.fst he)
      rw [hrest, dictGet, if_pos hk, hk, dictGet_dictSet_self]
      rfl
    · rw [dictGet_dictSet_ne (fun h => hk h.symm) d kv.2, dictGet, if_neg hk]

theorem dictGet_dictUpdate_ne {n : PDict} {k : JVal}
    (hn : ∀ e ∈ n, e.1 ≠ k) (d : PDict) :
    dictGet (dictUpdate d n) k = dictGet d k := by
  induction n generalizing d with
  | nil => rfl
  | cons kv rest ih =>
    rw [dictUpdate_cons, ih (fun e he => hn e (by simp [he])),
      dictGet_dictSet_ne (Ne.symm (hn kv (by simp))) d kv.2]

theorem keysOf_setAll (d : PDict) (k v : JVal) :
    keysOf (setAll d k v) = keysOf d := by
  induction d with
  | nil => rfl
  | cons kv rest ih =>
    simp only [keysOf, setAll, List.map_cons] at ih ⊢
    by_cases hk : kv.1 = k
    · rw [if_pos hk, ih]
      simp [hk]
    · rw [if_neg hk, ih]

theorem nodupKeys_dictSet {d : PDict} (hd : NodupKeys d) (k v : JVal) :
    NodupKeys (dictSet d k v) := by
  rw [dictSet]
  by_cases h : hasKey d k
  · rw [if_pos h, NodupKeys, keysOf_setAll]
    exact hd
  · rw [if_neg h, NodupKeys, keysOf, List.map_append]
    rw [List.nodup_append]
    refine ⟨hd, by simp, ?_⟩
    intro a ha hb
    have hk : a = k := by simpa using hb
    have h' : hasKey d k = false := by simpa using h
    rw [hasKey_false_iff] at h'
    obtain ⟨e, he, heq⟩ := List.mem_map.1 ha
    exact h' e he (heq.trans hk)

theorem nodupKeys_dictUpdate {d : PDict} (hd : NodupKeys d) (n : PDict) :
    NodupKeys (dictUpdate d n) := by
  induction n generalizing d with
  | nil => exact hd
  | cons kv rest ih =>
    rw [dictUpdate_cons]
    exact ih (nodupKeys_dictSet hd kv.1 kv.2)

/-! ## Lemmas about the scanner -/

theorem scanDir_cons (p : String) (e : FileEntry) (es : List FileEntry)
    (acc : PDict) : scanDir p (e :: es) acc =
      scanDir p es (if qualifies e then
        dictSet acc (jstr (underscore (stem e.name)))
          (localDesc (p ++ "/" ++ e.name) [] ["*"])
      else acc) := rfl

theorem nodupKeys_scanDir {acc : PDict} (h : NodupKeys acc) (p : String)
    (es : List FileEntry) : NodupKeys (scanDir p es acc) := by
  induction es generalizing acc with
  | nil => exact h
  | cons e es ih =>
    rw [scanDir_cons]
    by_cases hq : qualifies e
    · rw [if_pos hq]
      exact ih (nodupKeys_dictSet h _ _)
    · rw [if_neg hq]
      exact ih h

theorem nodupKeys_fbGo : ∀ {path : List (String × DirState)} {acc s : PDict},
    fbGo path acc = .ok s → NodupKeys acc → NodupKeys s
  | [], _, _, h, hacc => by
    rw [fbGo] at h
    cases h
    exact hacc
  | (_, DirState.missing) :: rest, acc, s, h, hacc =>
    nodupKeys_fbGo (by rw [fbGo] at h; exact h) hacc
  | (_, DirState.notADir) :: _, _, _, h, _ => by
    rw [fbGo] at h
    cases h
  | (p, DirState.dir es) :: rest, acc, s, h, hacc =>
    nodupKeys_fbGo (by rw [fbGo] at h; exact h) (nodupKeys_scanDir hacc p es)

theorem nodupKeys_find_binaries {path : List (String × DirState)} {s : PDict}
    (h : find_binaries path = .ok s) : NodupKeys s :=
  nodupKeys_fbGo h List.nodup_nil

theorem nodupKeys_loadGo : ∀ {docs : List PDict} {acc s : PDict},
    loadGo docs acc = .ok s → NodupKeys acc → NodupKeys s
  | [], _, _, h, hacc => by
    rw [loadGo] at h
    cases h
    exact hacc
  | doc :: rest, acc, s, h, hacc => by
    rw [loadGo] at h
    cases hname : dictGet doc (jstr "name") with
    | none => rw [hname] at h; cases h
    | some n =>
      rw [hname] at h
      exact nodupKeys_loadGo h (nodupKeys_dictSet hacc n (descriptorOf doc))

theorem nodupKeys_load_yaml {ydir : YamlDir} {s : PDict}
    (h : load_yaml_descriptors ydir = .ok s) : NodupKeys s := by
  cases ydir with
  | missing => rw [load_yaml_descriptors] at h; cases h; exact List.nodup_nil
  | present docs =>
    rw [load_yaml_descriptors] at h
    exact nodupKeys_loadGo h List.nodup_nil

theorem nodupKeys_parseGo : ∀ {items : List String} {acc s : PDict},
    parseGo items acc = .ok s → NodupKeys acc → NodupKeys s
  | [], _, _, h, hacc => by
    rw [parseGo] at h
    cases h
    exact hacc
  | item :: rest, acc, s, h, hacc => by
    rw [parseGo] at h
    cases hone : parseOne item.toList with
    | error e => rw [hone] at h; cases h
    | ok o =>
      cases o with
      | none =>
        rw [hone] at h
        exact nodupKeys_parseGo h hacc
      | some kv =>
        rw [hone] at h
        exact nodupKeys_parseGo h (nodupKeys_dictSet hacc kv.1 kv.2)

theorem nodupKeys_parse_add_flags {addl : List String} {s : PDict}
    (h : parse_add_flags addl = .ok s) : NodupKeys s :=
  nodupKeys_parseGo h List.nodup_nil

/-! ## Lemmas about the merge engine -/

theorem merge_ok_inner {D N M inner : PDict}
    (hD : dictGet D (jstr "mcpServers") = some (JVal.obj inner))
    (hM : merge_configs D N = .ok M) :
    dictGet M (jstr "mcpServers") = some (JVal.obj (dictUpdate inner N)) := by
  have hkey : hasKey D (jstr "mcpServers") = true := hasKey_of_dictGet hD
  rw [merge_configs] at hM
  simp only [dictSetdefault_of_hasKey (JVal.obj []) hkey] at hM
  by_cases hN : N.isEmpty
  · rw [if_pos hN] at hM
    cases hM
    rw [List.isEmpty_iff] at hN
    rw [hN, show dictUpdate inner [] = inner from rfl]
    exact hD
  · rw [if_neg hN, hD] at hM
    cases hM
    exact dictGet_dictSet_self D (jstr "mcpServers") _

theorem merge_ok_other {D N M : PDict} {k : JVal}
    (hk : k ≠ jstr "mcpServers") (hM : merge_configs D N = .ok M) :
    dictGet M k = dictGet D k := by
  rw [merge_configs] at hM
  by_cases hN : N.isEmpty
  · rw [if_pos hN] at hM
    cases hM
    exact dictGet_setdefault_ne hk D (JVal.obj [])
  · rw [if_neg hN] at hM
    cases hget : dictGet (dictSetdefault D (jstr "mcpServers") (JVal.obj []))
        (jstr "mcpServers") with
    | none => rw [hget] at hM; cases hM
    | some w =>
      cases w with
      | str s => rw [hget] at hM; cases hM
      | arr l => rw [hget] at hM; cases hM
      | obj inner =>
        rw [hget] at hM
        cases hM
        rw [dictGet_dictSet_ne hk _ _]
        exact dictGet_setdefault_ne hk D (JVal.obj [])

theorem merge_ok_key_present {D N M : PDict} (hM : merge_configs D N = .ok M) :
    ∃ v, dictGet M (jstr "mcpServers") = some v := by
  rw [merge_configs] at hM
  by_cases hN : N.isEmpty
  · rw [if_pos hN] at hM
    cases hM
    exact dictGet_setdefault_isSome D (jstr "mcpServers") (JVal.obj [])
  · rw [if_neg hN] at hM
    cases hget : dictGet (dictSetdefault D (jstr "mcpServers") (JVal.obj []))
        (jstr "mcpServers") with
    | none => rw [hget] at hM; cases hM
    | some w =>
      cases w with
      | str s => rw [hget] at hM; cases hM
      | arr l => rw [hget] at hM; cases hM
      | obj inner =>
        rw [hget] at hM
        cases hM
        exact ⟨_, dictGet_dictSet_self _ _ _⟩

/-! ## Lemmas about the orchestration -/

theorem discover_ok {path : List (String × DirState)} {ydir : YamlDir}
    {addl : List String} {s1 s2 s3 : PDict}
    (h1 : find_binaries path = .ok s1)
    (h2 : load_yaml_descriptors ydir = .ok s2)
    (h3 : parse_add_flags addl = .ok s3) :
    discover path ydir addl =
      .ok (dictUpdate (dictUpdate (dictUpdate [] s1) s2) s3) := by
  rw [discover, h1, h2, h3]

theorem dictGet_stage_chain {s1 s2 s3 : PDict} (h1 : NodupKeys s1)
    (h2 : NodupKeys s2) (h3 : NodupKeys s3) (k : JVal) :
    dictGet (dictUpdate (dictUpdate (dictUpdate [] s1) s2) s3) k =
      ((dictGet s3 k).orElse fun _ =>
        (dictGet s2 k).orElse fun _ => dictGet s1 k) := by
  rw [dictGet_dictUpdate h3, dictGet_dictUpdate h2, dictGet_dictUpdate h1]
  cases dictGet s3 k <;> cases dictGet s2 k <;> cases dictGet s1 k <;> rfl

/-! ## Structure lemmas for the scanner refinement -/

theorem specSuffixOk_eq_qualifies (e : FileEntry) :
    (e.isFile && e.isExec && specSuffixOk e.name.toList) = qualifies e := by
  rw [qualifies, specSuffixOk, namePatternMatch, dollarMatch, dollarMatch,
    dollarMatch]
  simp only [List.any_cons, List.any_nil, Bool.or_false, Bool.or_assoc]

theorem scanDir_eq_foldl (p : String) (es : List FileEntry) (acc : PDict) :
    scanDir p es acc =
      ((es.filter qualifies).map (fun e => (jstr (underscore (stem e.name)),
        localDesc (p ++ "/" ++ e.name) [] ["*"]))).foldl
        (fun a kv => dictSet a kv.1 kv.2) acc := by
  induction es generalizing acc with
  | nil => rfl
  | cons e es ih =>
    rw [scanDir_cons]
    by_cases hq : qualifies e
    · rw [if_pos hq, List.filter_cons_of_pos hq, List.map_cons, List.foldl_cons]
      exact ih _
    · rw [if_neg hq, List.filter_cons_of_neg hq]
      exact ih acc

theorem fbGo_dirs (path : List (String × List FileEntry)) (acc : PDict) :
    fbGo (path.map (fun pe => (pe.1, DirState.dir pe.2))) acc =
      .ok (((path.map (fun pe =>
        ((pe.2.filter qualifies).map (fun e => (jstr (underscore (stem e.name)),
          localDesc (pe.1 ++ "/" ++ e.name) [] ["*"]))))).flatten).foldl
        (fun a kv => dictSet a kv.1 kv.2) acc) := by
  induction path generalizing acc with
  | nil => rfl
  | cons pe rest ih =>
    rw [List.map_cons, fbGo, List.map_cons, List.flatten_cons, List.foldl_append,
      ih (scanDir pe.1 pe.2 acc), scanDir_eq_foldl]

/-! ## String split lemmas for the explicit-entry parser -/

theorem takeWhile_append_stop {α : Type} (p : α → Bool) (l : List α) (c : α)
    (r : List α) (hl : ∀ a ∈ l, p a = true) (hc : p c = false) :
    (l ++ c :: r).takeWhile p = l ∧ (l ++ c :: r).dropWhile p = c :: r := by
  induction l with
  | nil =>
    constructor
    · rw [List.nil_append, List.takeWhile_cons, hc]
      simp
    · rw [List.nil_append, List.dropWhile_cons, hc]
      simp
  | cons a l ih =>
    have ha : p a = true := hl a (by simp)
    obtain ⟨iht, ihd⟩ := ih (fun x hx => hl x (by simp [hx]))
    constructor
    · rw [List.cons_append, List.takeWhile_cons, ha]
      simp [iht]
    · rw [List.cons_append, List.dropWhile_cons, ha]
      simpa using ihd

theorem splitAll_ne_nil (sep : Char) (cs : List Char) : splitAll sep cs ≠ [] := by
  cases cs with
  | nil => simp [splitAll]
  | cons c rest =>
    rw [splitAll]
    cases h : splitAll sep rest with
    | nil => simp
    | cons w ws => by_cases hc : c = sep <;> simp [hc]

/-! ## Lemmas about the explicit-entry parser -/

theorem parseGo_cons_skip {item : String} (h : parseOne item.toList = .ok none)
    (rest : List String) (acc : PDict) :
    parseGo (item :: rest) acc = parseGo rest acc := by
  rw [parseGo, h]

theorem parseGo_cons_entry {item : String} {kv : JVal × JVal}
    (h : parseOne item.toList = .ok (some kv)) (rest : List String)
    (acc : PDict) :
    parseGo (item :: rest) acc = parseGo rest (dictSet acc kv.1 kv.2) := by
  rw [parseGo, h]

theorem parseOne_no_eq {item : List Char} (h : '=' ∉ item) :
    parseOne item = .ok none := by
  rw [parseOne, if_neg h]

theorem parseGo_total : ∀ (items : List String) (acc : PDict),
    (∀ item ∈ items, goodEntry item) → ∃ m, parseGo items acc = .ok m
  | [], acc, _ => ⟨acc, rfl⟩
  | item :: rest, acc, h => by
    have hrest : ∀ i ∈ rest, goodEntry i := fun i hi => h i (by simp [hi])
    by_cases hmem : '=' ∈ item.toList
    · have hw : wsSplit (commandSeg item.toList) ≠ [] := h item (by simp) hmem
      cases hws : wsSplit (commandSeg item.toList) with
      | nil => exact absurd hws hw
      | cons c0 cargs =>
        have hone : ∃ kv, parseOne item.toList = .ok (some kv) := by
          rw [parseOne, if_pos hmem, hws]
          exact ⟨_, rfl⟩
        obtain ⟨kv, hkv⟩ := hone
        rw [parseGo_cons_entry hkv]
        exact parseGo_total rest _ hrest
    · rw [parseGo_cons_skip (parseOne_no_eq hmem)]
      exact parseGo_total rest acc hrest

theorem toolsListOf_ne_nil (tools : List Char) : toolsListOf tools ≠ [] := by
  rw [toolsListOf]
  by_cases h : tools = ['*']
  · rw [if_pos h]; simp
  · rw [if_neg h]; exact splitAll_ne_nil ',' tools

theorem parseOne_ok_val {item : List Char} {kv : JVal × JVal}
    (h : parseOne item = .ok (some kv)) :
    ∃ o ts, kv.2 = JVal.obj o ∧
      dictGet o (jstr "tools") = some (JVal.arr ts) ∧ ts ≠ [] := by
  rw [parseOne] at h
  by_cases hmem : '=' ∈ item
  · rw [if_pos hmem] at h
    cases hws : wsSplit (commandSeg item) with
    | nil => rw [hws] at h; cases h
    | cons c0 cargs =>
      rw [hws] at h
      cases h
      by_cases hc : ':' ∈ restSeg item
      · rw [if_pos hc]
        refine ⟨_, (toolsListOf (((restSeg item).dropWhile
          (fun c => c ≠ ':')).tail)).map (fun t => jstr ⟨t⟩), rfl, ?_, ?_⟩
        · simp [dictGet, jstr]
        · simp [toolsListOf_ne_nil]
      · rw [if_neg hc]
        refine ⟨_, [jstr ⟨['*']⟩], rfl, ?_, ?_⟩
        · simp [dictGet, jstr]
        · simp
  · rw [if_neg hmem] at h
    cases h

theorem scanDir_vals {P : JVal × JVal → Prop}
    (hP : ∀ k cmd, P (k, localDesc cmd [] ["*"]))
    {acc : PDict} (hacc : ∀ e ∈ acc, P e) (p : String) (es : List FileEntry) :
    ∀ e ∈ scanDir p es acc, P e := by
  induction es generalizing acc with
  | nil => exact hacc
  | cons e es ih =>
    rw [scanDir_cons]
    by_cases hq : qualifies e
    · rw [if_pos hq]
      refine ih (fun x hx => ?_)
      rcases mem_dictSet hx with h' | h'
      · exact hacc x h'
      · rw [h']
        exact hP _ _
    · rw [if_neg hq]
      exact ih hacc

theorem fbGo_vals {P : JVal × JVal → Prop}
    (hP : ∀ k cmd, P (k, localDesc cmd [] ["*"])) :
    ∀ {path : List (String × DirState)} {acc s : PDict},
      fbGo path acc = .ok s → (∀ e ∈ acc, P e) → ∀ e ∈ s, P e
  | [], _, _, h, hacc => by
    rw [fbGo] at h
    cases h
    exact hacc
  | (_, DirState.missing) :: rest, acc, s, h, hacc =>
    fbGo_vals hP (by rw [fbGo] at h; exact h) hacc
  | (_, DirState.notADir) :: _, _, _, h, _ => by
    rw [fbGo] at h
    cases h
  | (p, DirState.dir es) :: rest, acc, s, h, hacc =>
    fbGo_vals hP (by rw [fbGo] at h; exact h) (scanDir_vals hP hacc p es)

theorem parseGo_vals {P : JVal × JVal → Prop}
    (hP : ∀ (item : List Char) (kv : JVal × JVal),
      parseOne item = .ok (some kv) → P kv) :
    ∀ {items : List String} {acc m : PDict},
      parseGo items acc = .ok m → (∀ e ∈ acc, P e) → ∀ e ∈ m, P e
  | [], _, _, h, hacc => by
    rw [parseGo] at h
    cases h
    exact hacc
  | item :: rest, acc, m, h, hacc => by
    rw [parseGo] at h
    cases hone : parseOne item.toList with
    | error e => rw [hone] at h; cases h
    | ok o =>
      cases o with
      | none =>
        rw [hone] at h
        exact parseGo_vals hP h hacc
      | some kv =>
        rw [hone] at h
        refine parseGo_vals hP h (fun x hx => ?_)
        rcases mem_dictSet hx with h' | h'
        · exact hacc x h'
        · rw [h', show ((kv.1, kv.2) : JVal × JVal) = kv from rfl]
          exact hP item.toList kv hone

/-! ## Lemmas about the descriptor loader -/

theorem loadGo_error {docs : List PDict}
    (h : ∃ doc ∈ docs, dictGet doc (jstr "name") = none) :
    ∀ acc, loadGo docs acc = .error PyErr.keyError := by
  induction docs with
  | nil => simp at h
  | cons doc rest ih =>
    intro acc
    cases hname : dictGet doc (jstr "name") with
    | none => rw [loadGo, hname]
    | some n =>
      rw [loadGo, hname]
      obtain ⟨d, hd, hdnone⟩ := h
      rcases List.mem_cons.1 hd with rfl | hd'
      · rw [hname] at hdnone; cases hdnone
      · exact ih ⟨d, hd', hdnone⟩ _

theorem loadGo_ok {docs : List PDict}
    (h : ∀ doc ∈ docs, (dictGet doc (jstr "name")).isSome) :
    ∀ acc, loadGo docs acc = .ok (docs.foldl (fun a doc =>
      dictSet a ((dictGet doc (jstr "name")).getD (jstr ""))
        (descriptorOf doc)) acc) := by
  induction docs with
  | nil => intro acc; rfl
  | cons doc rest ih =>
    intro acc
    have hdoc := h doc (by simp)
    cases hname : dictGet doc (jstr "name") with
    | none => rw [hname] at hdoc; cases hdoc
    | some n =>
      rw [loadGo, hname, List.foldl_cons, hname]
      exact ih (fun d hd => h d (by simp [hd])) _

theorem hasKey_setdefault_self (d : PDict) (k v : JVal) :
    hasKey (dictSetdefault d k v) k = true := by
  obtain ⟨w, hw⟩ := dictGet_setdefault_isSome d k v
  exact hasKey_of_dictGet hw

/-! ## Claim theorems -/

/-- C5: the merge engine is idempotent: whenever `merge_configs D N` succeeds
with result `M` (for a new mapping `N` with the unique keys of a real Python
dict), merging `N` into `M` again returns `M` unchanged. -/
theorem C5_merge_idempotent {D N M : PDict} (hN : NodupKeys N)
    (hM : merge_configs D N = .ok M) : merge_configs M N = .ok M := by
  rw [merge_configs] at hM
  by_cases hNe : N.isEmpty
  · rw [if_pos hNe] at hM
    cases hM
    rw [merge_configs, if_pos hNe,
      dictSetdefault_of_hasKey (JVal.obj []) (hasKey_setdefault_self D _ _)]
  · rw [if_neg hNe] at hM
    cases hget : dictGet (dictSetdefault D (jstr "mcpServers") (JVal.obj []))
        (jstr "mcpServers") with
    | none => rw [hget] at hM; cases hM
    | some w =>
      cases w with
      | str s => rw [hget] at hM; cases hM
      | arr l => rw [hget] at hM; cases hM
      | obj inner =>
        rw [hget] at hM
        cases hM
        rw [merge_configs, if_neg hNe,
          dictSetdefault_of_hasKey (JVal.obj [])
            (hasKey_dictSet_self _ _ _),
          dictGet_dictSet_self]
        have hstep : dictSet (dictSet (dictSetdefault D (jstr "mcpServers")
            (JVal.obj [])) (jstr "mcpServers") (JVal.obj (dictUpdate inner N)))
            (jstr "mcpServers") (JVal.obj (dictUpdate (dictUpdate inner N) N)) =
            dictSet (dictSetdefault D (jstr "mcpServers") (JVal.obj []))
            (jstr "mcpServers") (JVal.obj (dictUpdate inner N)) := by
          rw [dictUpdate_idem hN, dictSet_idem]
        exact congrArg Except.ok hstep

/-- C5 witness: a concrete document and new mapping on which the merge and
its repetition agree. -/
theorem C5_merge_idempotent_witness :
    NodupKeys [(jstr "x", jstr "v")] ∧
    merge_configs [(jstr "other", jstr "1")] [(jstr "x", jstr "v")] =
      .ok [(jstr "other", jstr "1"),
        (jstr "mcpServers", JVal.obj [(jstr "x", jstr "v")])] ∧
    merge_configs [(jstr "other", jstr "1"),
        (jstr "mcpServers", JVal.obj [(jstr "x", jstr "v")])]
      [(jstr "x", jstr "v")] =
      .ok [(jstr "other", jstr "1"),
        (jstr "mcpServers", JVal.obj [(jstr "x", jstr "v")])] :=
  ⟨by decide, by decide,
    @C5_merge_idempotent [(jstr "other", jstr "1")] [(jstr "x", jstr "v")]
      [(jstr "other", jstr "1"),
        (jstr "mcpServers", JVal.obj [(jstr "x", jstr "v")])]
      (by decide) (by decide)⟩

/-- C6: the merge preserves unchanged every top-level key other than
`mcpServers`, the well-known key is present in the result, and every
`mcpServers` entry of the existing document whose name is not in the new
mapping keeps its value. -/
theorem C6_merge_frame {D N M : PDict} (hM : merge_configs D N = .ok M) :
    (∀ k, k ≠ jstr "mcpServers" → dictGet M k = dictGet D k) ∧
    (∃ v, dictGet M (jstr "mcpServers") = some v) ∧
    (∀ inner k, dictGet D (jstr "mcpServers") = some (JVal.obj inner) →
      (∀ e ∈ N, e.1 ≠ k) → ∃ inner',
        dictGet M (jstr "mcpServers") = some (JVal.obj inner') ∧
        dictGet inner' k = dictGet inner k) :=
  ⟨fun _ hk => merge_ok_other hk hM, merge_ok_key_present hM,
    fun inner _ hD hkN => ⟨dictUpdate inner N, merge_ok_inner hD hM,
      dictGet_dictUpdate_ne hkN inner⟩⟩

/-- C6 witness: merging one fresh entry into `{"other": "1", "mcpServers":
{"y": "keep"}}` leaves the unrelated key `"other"` untouched. -/
theorem C6_merge_frame_witness :
    dictGet [(jstr "other", jstr "1"), (jstr "mcpServers",
      JVal.obj [(jstr "y", jstr "keep"), (jstr "x", jstr "v")])]
      (jstr "other") = some (jstr "1") :=
  (@C6_merge_frame [(jstr "other", jstr "1"),
      (jstr "mcpServers", JVal.obj [(jstr "y", jstr "keep")])]
    [(jstr "x", jstr "v")]
    [(jstr "other", jstr "1"), (jstr "mcpServers",
      JVal.obj [(jstr "y", jstr "keep"), (jstr "x", jstr "v")])]
    (by decide)).1 (jstr "other") (by decide)

/-- C7: the orchestration runs scanner, loader, parser in that fixed order
and combines their outputs by successive whole-mapping overwrite, so each
name resolves to the explicit-entry descriptor when present, else the
descriptor-file one, else the scanner one (union when disjoint). -/
theorem C7_stage_precedence {path : List (String × DirState)} {ydir : YamlDir}
    {addl : List String} {s1 s2 s3 : PDict}
    (h1 : find_binaries path = .ok s1)
    (h2 : load_yaml_descriptors ydir = .ok s2)
    (h3 : parse_add_flags addl = .ok s3) :
    ∃ servers, discover path ydir addl = .ok servers ∧ NodupKeys servers ∧
      ∀ k, dictGet servers k = ((dictGet s3 k).orElse fun _ =>
        (dictGet s2 k).orElse fun _ => dictGet s1 k) :=
  ⟨_, discover_ok h1 h2 h3,
    nodupKeys_dictUpdate (nodupKeys_dictUpdate
      (nodupKeys_dictUpdate (show NodupKeys [] from List.nodup_nil) s1) s2) s3,
    fun k => dictGet_stage_chain (nodupKeys_find_binaries h1)
      (nodupKeys_load_yaml h2) (nodupKeys_parse_add_flags h3) k⟩

/-- C7 witness: a scanner binary, a descriptor file and an explicit entry,
with the descriptor file and the explicit entry colliding on the name `a`;
the explicit entry wins in the discovered mapping. -/
theorem C7_stage_precedence_witness :
    ∃ servers, discover [("d", DirState.dir [⟨"foo-mcp", true, true⟩])]
        (YamlDir.present [[(jstr "name", jstr "a"),
          (jstr "type", jstr "remote")]]) ["a=run:t"] = .ok servers ∧
      NodupKeys servers ∧
      ∀ k, dictGet servers k =
        ((dictGet [(jstr "a", JVal.obj [(jstr "type", jstr "local"),
          (jstr "command", jstr "run"), (jstr "args", JVal.arr []),
          (jstr "tools", JVal.arr [jstr "t"])])] k).orElse fun _ =>
        (dictGet [(jstr "a", JVal.obj [(jstr "type", jstr "remote")])]
          k).orElse fun _ =>
        dictGet [(jstr "foo_mcp", localDesc "d/foo-mcp" [] ["*"])] k) :=
  C7_stage_precedence (by decide) (by decide) (by decide)

/-- C8: a descriptor document with no `name` field makes the loader fail with
the propagated `KeyError` (no partial mapping is returned); when every
document has a `name`, the loader stores, under each document's name value,
every key of the document except `name`, passed through unchanged. -/
theorem C8_loader_name (docs : List PDict) :
    ((∃ doc ∈ docs, dictGet doc (jstr "name") = none) →
      load_yaml_descriptors (.present docs) = .error PyErr.keyError) ∧
    ((∀ doc ∈ docs, (dictGet doc (jstr "name")).isSome) →
      load_yaml_descriptors (.present docs) = .ok (docs.foldl (fun a doc =>
        dictSet a ((dictGet doc (jstr "name")).getD (jstr ""))
          (descriptorOf doc)) [])) :=
  ⟨fun h => loadGo_error h [], fun h => loadGo_ok h []⟩

/-- C8 witness: a document without `name` aborts the loader; a document with
`name` is stored under that name minus the `name` key. -/
theorem C8_loader_name_witness :
    load_yaml_descriptors (.present [[(jstr "type", jstr "remote")]]) =
      .error PyErr.keyError ∧
    load_yaml_descriptors (.present [[(jstr "name", jstr "x"),
      (jstr "type", jstr "remote"), (jstr "url", jstr "u")]]) =
      .ok [(jstr "x", JVal.obj [(jstr "type", jstr "remote"),
        (jstr "url", jstr "u")])] :=
  ⟨(C8_loader_name [[(jstr "type", jstr "remote")]]).1
      ⟨[(jstr "type", jstr "remote")], by decide, by decide⟩,
    (C8_loader_name [[(jstr "name", jstr "x"), (jstr "type", jstr "remote"),
      (jstr "url", jstr "u")]]).2 (by decide)⟩

/-- C9: `parse_add_flags` fails with an uncaught `IndexError` on entries like
`"x="` and `"x=:read"` whose command segment has no non-whitespace token, and
is total when every entry containing `=` has at least one non-whitespace
token before any colon-separated tools segment (`goodEntry`). -/
theorem C9_parse_partiality :
    parse_add_flags ["x="] = .error PyErr.indexError ∧
    parse_add_flags ["x=:read"] = .error PyErr.indexError ∧
    ∀ items : List String, (∀ item ∈ items, goodEntry item) →
      ∃ m, parse_add_flags items = .ok m :=
  ⟨by decide, by decide, fun items h => parseGo_total items [] h⟩

/-- C9 witness: the totality part applied to a concrete good entry list. -/
theorem C9_parse_partiality_witness :
    (∀ item ∈ ["a=b c:t"], goodEntry item) ∧
    ∃ m, parse_add_flags ["a=b c:t"] = .ok m :=
  ⟨by decide, C9_parse_partiality.2.2 ["a=b c:t"] (by decide)⟩

/-- C10: the scanner suppresses only the not-found error: a missing
search-path entry is skipped silently, while an existing non-directory entry
aborts the whole scan with `NotADirectoryError`. -/
theorem C10_scan_errors (p : String) (rest : List (String × DirState))
    (acc : PDict) :
    fbGo ((p, DirState.missing) :: rest) acc = fbGo rest acc ∧
    fbGo ((p, DirState.notADir) :: rest) acc =
      .error PyErr.notADirectoryError ∧
    find_binaries [(p, DirState.missing)] = .ok [] ∧
    find_binaries [(p, DirState.notADir)] =
      .error PyErr.notADirectoryError :=
  ⟨rfl, rfl, rfl, rfl⟩

/-- C1 counterexample: with a pre-existing document mapping `x` to `"old"`
and an explicit entry producing a fresh descriptor for `x`, the merged result
holds the fresh descriptor (whole-descriptor replacement), so the
pre-existing entry does not win. -/
theorem C1_counterexample :
    mainMerge [] YamlDir.missing ["x=new:*"]
      (some [(jstr "mcpServers", JVal.obj [(jstr "x", jstr "old")])]) =
    .ok [(jstr "mcpServers", JVal.obj [(jstr "x",
      JVal.obj [(jstr "type", jstr "local"), (jstr "command", jstr "new"),
        (jstr "args", JVal.arr []), (jstr "tools", JVal.arr [jstr "*"])])])] ∧
    (JVal.obj [(jstr "type", jstr "local"), (jstr "command", jstr "new"),
      (jstr "args", JVal.arr []), (jstr "tools", JVal.arr [jstr "*"])]) ≠
      jstr "old" :=
  ⟨by decide, by decide⟩

/-- C1 (amended): the effective precedence is pre-existing file content <
filesystem scan < descriptor files < explicit entries, later wins by
whole-descriptor replacement: in a successful merged document, each name
resolves to the explicit-entry descriptor when present, else the
descriptor-file one, else the scanner one, else the pre-existing entry. -/
theorem C1_precedence {path : List (String × DirState)} {ydir : YamlDir}
    {addl : List String} {D inner0 s1 s2 s3 M : PDict}
    (h1 : find_binaries path = .ok s1)
    (h2 : load_yaml_descriptors ydir = .ok s2)
    (h3 : parse_add_flags addl = .ok s3)
    (hD : dictGet D (jstr "mcpServers") = some (JVal.obj inner0))
    (hM : mainMerge path ydir addl (some D) = .ok M) (k : JVal) :
    ∃ inner, dictGet M (jstr "mcpServers") = some (JVal.obj inner) ∧
      dictGet inner k = ((dictGet s3 k).orElse fun _ =>
        (dictGet s2 k).orElse fun _ => (dictGet s1 k).orElse fun _ =>
          dictGet inner0 k) := by
  have hM' : merge_configs D
      (dictUpdate (dictUpdate (dictUpdate [] s1) s2) s3) = .ok M := by
    rw [mainMerge, discover_ok h1 h2 h3] at hM
    exact hM
  refine ⟨_, merge_ok_inner hD hM', ?_⟩
  have hnd : NodupKeys (dictUpdate (dictUpdate (dictUpdate [] s1) s2) s3) :=
    nodupKeys_dictUpdate (nodupKeys_dictUpdate
      (nodupKeys_dictUpdate (show NodupKeys [] from List.nodup_nil) s1) s2) s3
  rw [dictGet_dictUpdate hnd,
    dictGet_stage_chain (nodupKeys_find_binaries h1)
      (nodupKeys_load_yaml h2) (nodupKeys_parse_add_flags h3)]
  cases dictGet s3 k <;> cases dictGet s2 k <;> cases dictGet s1 k <;> rfl

/-- C1 witness: a pre-existing entry for `x` colliding with an explicit-entry
descriptor; the merged mapping resolves `x` to the fresh descriptor. -/
theorem C1_precedence_witness :
    ∃ inner, dictGet [(jstr "mcpServers", JVal.obj [(jstr "x",
        JVal.obj [(jstr "type", jstr "local"), (jstr "command", jstr "new"),
          (jstr "args", JVal.arr []), (jstr "tools", JVal.arr [jstr "*"])])])]
        (jstr "mcpServers") = some (JVal.obj inner) ∧
      dictGet inner (jstr "x") =
        ((dictGet [(jstr "x", JVal.obj [(jstr "type", jstr "local"),
          (jstr "command", jstr "new"), (jstr "args", JVal.arr []),
          (jstr "tools", JVal.arr [jstr "*"])])] (jstr "x")).orElse fun _ =>
        (dictGet ([] : PDict) (jstr "x")).orElse fun _ =>
        (dictGet ([] : PDict) (jstr "x")).orElse fun _ =>
        dictGet [(jstr "x", jstr "old")] (jstr "x")) :=
  @C1_precedence [] YamlDir.missing ["x=new:*"]
    [(jstr "mcpServers", JVal.obj [(jstr "x", jstr "old")])]
    [(jstr "x", jstr "old")] [] []
    [(jstr "x", JVal.obj [(jstr "type", jstr "local"),
      (jstr "command", jstr "new"), (jstr "args", JVal.arr []),
      (jstr "tools", JVal.arr [jstr "*"])])]
    [(jstr "mcpServers", JVal.obj [(jstr "x",
      JVal.obj [(jstr "type", jstr "local"), (jstr "command", jstr "new"),
        (jstr "args", JVal.arr []), (jstr "tools", JVal.arr [jstr "*"])])])]
    (by decide) (by decide) (by decide) (by decide) (by decide) (jstr "x")

theorem parseOne_with_colon {name rest c0 : List Char}
    {cargs : List (List Char)} (hne : '=' ∉ name) (hc : ':' ∈ rest)
    (hsplit : wsSplit (rest.takeWhile (fun c => c ≠ ':')) = c0 :: cargs) :
    parseOne (name ++ '=' :: rest) = .ok (some (jstr ⟨name⟩,
      JVal.obj [(jstr "type", jstr "local"), (jstr "command", jstr ⟨c0⟩),
        (jstr "args", JVal.arr (cargs.map (fun a => jstr ⟨a⟩))),
        (jstr "tools", JVal.arr ((toolsListOf
          ((rest.dropWhile (fun c => c ≠ ':')).tail)).map
          (fun t => jstr ⟨t⟩)))])) := by
  have hl : ∀ a ∈ name, (fun c : Char => decide (c ≠ '=')) a = true :=
    fun a ha => decide_eq_true (fun heq => hne (heq ▸ ha))
  obtain ⟨ht, hd⟩ := takeWhile_append_stop (fun c : Char => decide (c ≠ '='))
    name '=' rest hl (by decide)
  have hrest : restSeg (name ++ '=' :: rest) = rest := by
    rw [restSeg, hd]
    rfl
  have hcmd : commandSeg (name ++ '=' :: rest) =
      rest.takeWhile (fun c => c ≠ ':') := by
    rw [commandSeg, hrest, if_pos hc]
  have hmem : '=' ∈ name ++ '=' :: rest := by simp
  rw [parseOne, if_pos hmem, hcmd, hsplit, hrest, if_pos hc, ht]

/-- C2 counterexample: on `"x=run a:b:c"` the code splits at the FIRST colon
of the right-hand side, yielding `command="run"`, `args=["a"]`,
`tools=["b:c"]`, while last-colon parsing would yield `args=["a:b"]` and
`tools=["c"]`. -/
theorem C2_counterexample :
    parse_add_flags ["x=run a:b:c"] =
      .ok [(jstr "x", JVal.obj [(jstr "type", jstr "local"),
        (jstr "command", jstr "run"), (jstr "args", JVal.arr [jstr "a"]),
        (jstr "tools", JVal.arr [jstr "b:c"])])] ∧
    JVal.arr [jstr "b:c"] ≠ JVal.arr [jstr "c"] ∧
    JVal.arr [jstr "a"] ≠ JVal.arr [jstr "a:b"] :=
  ⟨by decide, by decide, by decide⟩

/-- C2 (amended): for an explicit entry `name=rhs` whose right-hand side
contains at least one colon, the tools list is parsed from the segment after
the FIRST colon of the right-hand side (wildcard special-cased, comma-split
otherwise), and command/args are the whitespace tokens of the text before
that first colon; the example `"x=run foo:read,write"` still parses to
`command="run"`, `args=["foo"]`, `tools=["read","write"]`. -/
theorem C2_first_colon {name rest c0 : List Char} {cargs : List (List Char)}
    (hne : '=' ∉ name) (hc : ':' ∈ rest)
    (hsplit : wsSplit (rest.takeWhile (fun c => c ≠ ':')) = c0 :: cargs) :
    parse_add_flags [⟨name ++ '=' :: rest⟩] =
      .ok [(jstr ⟨name⟩, JVal.obj [(jstr "type", jstr "local"),
        (jstr "command", jstr ⟨c0⟩),
        (jstr "args", JVal.arr (cargs.map (fun a => jstr ⟨a⟩))),
        (jstr "tools", JVal.arr ((toolsListOf
          ((rest.dropWhile (fun c => c ≠ ':')).tail)).map
          (fun t => jstr ⟨t⟩)))])] := by
  rw [parse_add_flags, parseGo,
    show (String.mk (name ++ '=' :: rest)).toList = name ++ '=' :: rest
      from rfl,
    parseOne_with_colon hne hc hsplit]
  rfl

/-- C2 witness: the specification's own example, parsed through the amended
first-colon contract. -/
theorem C2_first_colon_witness :
    ('=' ∉ "x".toList) ∧ (':' ∈ "run foo:read,write".toList) ∧
    parse_add_flags [⟨"x".toList ++ '=' :: "run foo:read,write".toList⟩] =
      .ok [(jstr ⟨"x".toList⟩, JVal.obj [(jstr "type", jstr "local"),
        (jstr "command", jstr ⟨"run".toList⟩),
        (jstr "args", JVal.arr (["foo".toList].map (fun a => jstr ⟨a⟩))),
        (jstr "tools", JVal.arr ((toolsListOf
          (("run foo:read,write".toList.dropWhile (fun c => c ≠ ':')).tail)).map
          (fun t => jstr ⟨t⟩)))])] :=
  ⟨by decide, by decide,
    @C2_first_colon "x".toList "run foo:read,write".toList "run".toList
      ["foo".toList] (by decide) (by decide) (by decide)⟩

/-- C3 counterexample: a descriptor file `{name: x, type: remote}` produces a
final discovered mapping whose descriptor for `x` has no `tools` field at
all, refuting the claim that `tools` is present and non-empty for every
descriptor in the final mapping. -/
theorem C3_counterexample :
    discover [] (YamlDir.present [[(jstr "name", jstr "x"),
      (jstr "type", jstr "remote")]]) [] =
      .ok [(jstr "x", JVal.obj [(jstr "type", jstr "remote")])] ∧
    dictGet [(jstr "type", jstr "remote")] (jstr "tools") = none :=
  ⟨by decide, by decide⟩

/-- C3 (amended): descriptors produced by the filesystem scanner always carry
`tools = ["*"]`, and descriptors produced by the explicit-entry parser always
carry a present, non-empty `tools` list; descriptor-file entries pass their
fields through verbatim and may lack `tools` entirely. -/
theorem C3_tools_default {path : List (String × DirState)}
    {addl : List String} {s m : PDict} (h1 : find_binaries path = .ok s)
    (h2 : parse_add_flags addl = .ok m) :
    (∀ e ∈ s, ∃ cmd, e.2 = localDesc cmd [] ["*"]) ∧
    (∀ e ∈ m, ∃ o ts, e.2 = JVal.obj o ∧
      dictGet o (jstr "tools") = some (JVal.arr ts) ∧ ts ≠ []) := by
  constructor
  · exact fbGo_vals (fun k cmd => ⟨cmd, rfl⟩) h1 (fun e he => absurd he
      (List.not_mem_nil e))
  · exact parseGo_vals (fun item kv hkv => parseOne_ok_val hkv) h2
      (fun e he => absurd he (List.not_mem_nil e))

/-- C3 witness: the amended claim applied to a concrete scan result and a
concrete explicit entry. -/
theorem C3_tools_default_witness :
    ∃ o ts, (JVal.obj [(jstr "type", jstr "local"),
        (jstr "command", jstr "run"), (jstr "args", JVal.arr []),
        (jstr "tools", JVal.arr [jstr "a", jstr "b"])] : JVal) =
        JVal.obj o ∧
      dictGet o (jstr "tools") = some (JVal.arr ts) ∧ ts ≠ [] :=
  (@C3_tools_default [("d", DirState.dir [⟨"foo-mcp", true, true⟩])]
    ["x=run:a,b"] [(jstr "foo_mcp", localDesc "d/foo-mcp" [] ["*"])]
    [(jstr "x", JVal.obj [(jstr "type", jstr "local"),
      (jstr "command", jstr "run"), (jstr "args", JVal.arr []),
      (jstr "tools", JVal.arr [jstr "a", jstr "b"])])]
    (by decide) (by decide)).2
    (jstr "x", JVal.obj [(jstr "type", jstr "local"),
      (jstr "command", jstr "run"), (jstr "args", JVal.arr []),
      (jstr "tools", JVal.arr [jstr "a", jstr "b"])]) (by decide)

/-- C4 counterexample: a regular executable file named `"a-mcp\n"` (trailing
newline) does not end with any of the exact suffixes, yet the scanner adds an
entry for it, because the regex `$` anchor also matches just before a
trailing newline; so the claim's "no other entries are added" fails. -/
theorem C4_counterexample :
    find_binaries [("d", DirState.dir [⟨"a-mcp\n", true, true⟩])] =
      .ok [(jstr "a_mcp\n", localDesc "d/a-mcp\n" [] ["*"])] ∧
    plainSuffixMatch "a-mcp\n".toList = false :=
  ⟨by decide, by decide⟩

/-- C4 (amended): over existing directories, the scanner adds exactly one
entry per directory entry that is a regular file, executable, and whose name
ends with one of the fixed suffixes `mcp-server`, `-mcp`, `_mcp` optionally
followed by a single trailing newline (the regex `$` artifact); the key is
the underscored stem and the value the local descriptor with the joined
path, empty args and wildcard tools; no other entries are added, and later
bindings overwrite earlier ones. -/
theorem C4_scan (path : List (String × List FileEntry)) :
    find_binaries (path.map (fun pe => (pe.1, DirState.dir pe.2))) =
      .ok (specScan path) := by
  rw [find_binaries, fbGo_dirs, specScan]
  have hfilter : ∀ es : List FileEntry,
      es.filter (fun e => e.isFile && e.isExec && specSuffixOk e.name.toList) =
        es.filter qualifies :=
    fun es => List.filter_congr (fun e _ => specSuffixOk_eq_qualifies e)
  simp only [hfilter]
